import Mathlib

/-!
# Verification of the hap core: session transport, pairing administration,
# characteristic access, and persistence

Shallow embedding of the Go sources (session.go, pairings.go,
pair-setup handler, characteristic handlers, fsStore), with theorems
checking the natural-language specification against the code.

Bytes are modelled as `Nat`, byte strings as `List Nat`.  Machine
integer wrap-around is made explicit with `% 2 ^ w` where it matters
(the little-endian nonce encoding truncates exactly like
`binary.LittleEndian.PutUint64`).
-/

namespace Hap

/-- Little-endian byte encoding of `c` on `n` bytes, as produced by
`binary.LittleEndian.PutUint64` / `PutUint16` (with `n = 8` or `n = 2`):
byte `i` is `c / 256^i % 256`, higher bytes are discarded. -/
def leBytes : Nat → Nat → List Nat
  | 0, _ => []
  | n + 1, c => c % 256 :: leBytes n (c / 256)

/-- Little-endian decoding, inverse of `leBytes` modulo `256 ^ n`. -/
def leDecode : List Nat → Nat
  | [] => 0
  | b :: bs => b + 256 * leDecode bs

/-- A plaintext chunk produced by `packetsWithSizeFromBytes`
(session.go: `type packet struct { length int; value []byte }`). -/
structure packet where
  length : Nat
  value : List Nat
  deriving DecidableEq, Repr

/-- Fuel-driven loop body of `packetsWithSizeFromBytes` (session.go
lines 231-253).  Each iteration reads up to `size` bytes from the
remaining input: with a `bytes`-style reader the read returns
`min size |bs|` bytes, `n = 0` (and EOF) exactly when the input is
exhausted or `size = 0`, the loop emits `packet{length: n, value: value[:n]}`
and stops as soon as `n < size` or EOF is reached.  The fuel is an upper
bound on the input length; each iteration consumes at least one byte. -/
def packetsGo (size : Nat) : Nat → List Nat → List packet
  | 0, _ => []
  | fuel + 1, bs =>
    if size = 0 ∨ bs = [] then []
    else packet.mk (bs.take size).length (bs.take size) :: packetsGo size fuel (bs.drop size)

/-- Function `packetsWithSizeFromBytes` (session.go lines 231-253): split a byte
stream into chunks of at most `size` bytes. -/
def packetsWithSizeFromBytes (size : Nat) (bs : List Nat) : List packet :=
  packetsGo size bs.length bs

/-- Constant `PacketLengthMax` (session.go line 222): max plaintext length of a chunk. -/
def PacketLengthMax : Nat := 0x400

/-- Function `packetsFromBytes` (session.go lines 256-258). -/
def packetsFromBytes (bs : List Nat) : List packet :=
  packetsWithSizeFromBytes PacketLengthMax bs

/-- Modelled from the spec: the ChaCha20-Poly1305 AEAD of package
`chacha20poly1305` (not under src/), as an ideal authenticated box.
The sealed box remembers the key, nonce, message and additional data;
opening succeeds exactly under the sealing key, nonce and AAD.  The
ciphertext and the 16-byte Poly1305 tag of the real AEAD are together
represented by the box. -/
structure SealedBox where
  key : List Nat
  nonce : List Nat
  msg : List Nat
  aad : List Nat
  deriving DecidableEq, Repr

/-- Modelled from the spec: `chacha20poly1305.EncryptAndSeal`. -/
def EncryptAndSeal (key nonce msg aad : List Nat) : SealedBox :=
  ⟨key, nonce, msg, aad⟩

/-- Modelled from the spec: `chacha20poly1305.DecryptAndVerify`; returns
the message iff key, nonce and AAD match the ones used for sealing. -/
def DecryptAndVerify (key nonce : List Nat) (box : SealedBox) (aad : List Nat) :
    Option (List Nat) :=
  if box.key = key ∧ box.nonce = nonce ∧ box.aad = aad then some box.msg else none

/-- One encrypted chunk on the wire:
`[ length : u16 LE ] [ ciphertext : length bytes ] [ tag : 16 bytes ]`.
The `length` field is the 2-byte prefix; ciphertext and tag are the box. -/
structure Frame where
  length : Nat
  box : SealedBox
  deriving DecidableEq, Repr

/-- Structure `Pairing` (store: `type Pairing struct { Name string; PublicKey []byte; Permission byte }`). -/
structure Pairing where
  name : String
  publicKey : List Nat
  permission : Nat
  deriving DecidableEq, Repr

/-- Structure `Session` (session.go lines 118-125). -/
structure Session where
  pairing : Pairing
  encryptKey : List Nat
  decryptKey : List Nat
  encryptCount : Nat
  decryptCount : Nat
  deriving DecidableEq, Repr

/-- The per-packet loop of `Session.Encrypt` (session.go lines 153-169):
for each packet, the nonce is the little-endian u64 of the running
`encryptCount`, the 2-byte length prefix is the AAD, and the counter
is incremented by one. -/
def encryptPackets (key : List Nat) (count : Nat) : List packet → List Frame
  | [] => []
  | p :: ps =>
    Frame.mk p.length (EncryptAndSeal key (leBytes 8 count) p.value (leBytes 2 p.length)) ::
      encryptPackets key (count + 1) ps

/-- Method `Session.Encrypt` (session.go lines 150-172): split the plaintext into
packets, seal each one, return the frames and the session with
`encryptCount` advanced by the number of chunks. -/
def Session.Encrypt (s : Session) (pt : List Nat) : List Frame × Session :=
  let ps := packetsFromBytes pt
  (encryptPackets s.encryptKey s.encryptCount ps,
   { s with encryptCount := s.encryptCount + ps.length })

/-- The read loop of `Session.Decrypt` (session.go lines 175-218):
for each frame, the nonce is the little-endian u64 of the running
`decryptCount` (incremented before the verification, also on failure),
the length bytes re-encoded from the wire length are the AAD; on tag
failure the whole call fails; the loop stops after a chunk shorter than
`PacketLengthMax`, or at EOF.  Returns the result and the final counter. -/
def decryptFrames (key : List Nat) (count : Nat) : List Frame → Option (List Nat) × Nat
  | [] => (some [], count)
  | f :: fs =>
    match DecryptAndVerify key (leBytes 8 count) f.box (leBytes 2 f.length) with
    | none => (none, count + 1)
    | some msg =>
      if f.length < PacketLengthMax then (some msg, count + 1)
      else
        match decryptFrames key (count + 1) fs with
        | (none, c) => (none, c)
        | (some rest, c) => (some (msg ++ rest), c)

/-- Method `Session.Decrypt` (session.go lines 175-218). -/
def Session.Decrypt (s : Session) (fs : List Frame) : Option (List Nat) × Session :=
  let rc := decryptFrames s.decryptKey s.decryptCount fs
  (rc.1, { s with decryptCount := rc.2 })

/-! ## Session registry and the pair-setup gate -/

/-- The three shapes of value stored in the process-wide `sessions`
map (`map[string]interface{}`, session.go line 17): `*PairSetupSession`,
`*PairVerifySession`, `*Session`.  Only the shape matters here. -/
inductive SessionKind where
  | setup
  | verify
  | established
  deriving DecidableEq, Repr

/-- Outcome of the two guards at the top of `Server.pairSetup`. -/
inductive PairSetupGate where
  | unavailable
  | busy
  | proceed
  deriving DecidableEq, Repr

/-- The guard section of `Server.pairSetup` (pair-setup handler lines
39-54): refuse with `TlvErrorUnavailable` when already paired, then
iterate over the addresses of the sessions map — the stored values are
ignored (`for addr, _ := range sessions()`) — and refuse with
`TlvErrorBusy` as soon as any address differs from the requester. -/
def pairSetup (paired : Bool) (sessionAddrs : List (String × SessionKind))
    (remote : String) : PairSetupGate :=
  if paired then .unavailable
  else if sessionAddrs.any (fun e => e.1 != remote) then .busy
  else .proceed

/-! ## Characteristics -/

/-- Modelled from the spec: the permission tags of package
`characteristic` (`PermissionRead`, `PermissionWrite`,
`PermissionEvents`); the package is not under src/. -/
inductive Perm where
  | read
  | write
  | events
  deriving DecidableEq, Repr

/-- Modelled from the spec: `characteristic.C`, flattened over the
accessory/service nesting: `aid` is the id of the accessory the
characteristic belongs to, `iid` its instance id; `val` is the current
value (the read hook `ValueRequest` returns it, the write hook
`SetValueRequest` stores it); `events` is the per-subscriber map
`{remote-addr → bool}`.  Values are opaque and modelled as `Nat`,
as are the format/unit/type tags. -/
structure Characteristic where
  aid : Nat
  iid : Nat
  val : Nat
  format : Nat
  unit : Nat
  typ : Nat
  minVal : Option Nat
  maxVal : Option Nat
  stepVal : Option Nat
  maxLen : Nat
  perms : List Perm
  events : List (String × Bool)
  deriving DecidableEq, Repr

/-- Modelled from the spec: `c.IsObservable()` — the characteristic has
the Events permission. -/
def IsObservable (c : Characteristic) : Bool :=
  c.perms.contains Perm.events

/-- Method `srv.findC` (characteristic handler lines 209-227): scan the
accessories by aid, then services and characteristics by iid; first
match wins.  On the flattened list this is the first entry with
matching (aid, iid). -/
def findC (cs : List Characteristic) (aid iid : Nat) : Option Characteristic :=
  cs.find? fun c => c.aid == aid && c.iid == iid

/-- Mutation through the pointer returned by `findC`: update the first
characteristic with the given (aid, iid), leave the rest unchanged. -/
def updateC : List Characteristic → Nat → Nat → (Characteristic → Characteristic) →
    List Characteristic
  | [], _, _, _ => []
  | c :: cs, aid, iid, f =>
    if c.aid == aid && c.iid == iid then f c :: cs else c :: updateC cs aid iid f

/-- Go map assignment `m[k] = v` on an association-list model. -/
def mapSet : List (String × Bool) → String → Bool → List (String × Bool)
  | [], k, v => [(k, v)]
  | (k', v') :: rest, k, v =>
    if k' == k then (k, v) :: rest else (k', v') :: mapSet rest k v

/-- Go map read `v, ok := m[k]` on an association-list model. -/
def mapGet (m : List (String × Bool)) (k : String) : Option Bool :=
  (m.find? (·.1 == k)).map (·.2)

/-- JSON status codes used by the characteristic handlers (values from
the constants referenced in src/). -/
def JsonStatusInsufficientPrivileges : Int := -70401

def JsonStatusServiceCommunicationFailure : Int := -70402

def JsonStatusNotificationNotSupported : Int := -70406

def JsonStatusInvalidValueInRequest : Int := -70410

/-- Structure `CharacteristicData` (characteristic handler lines 31-50): the JSON
element shape shared by GET responses, PUT requests and PUT responses.
`none` models an absent (`omitempty` / nil-pointer) field. -/
structure CharacteristicData where
  aid : Nat
  iid : Nat
  value : Option Nat := none
  typ : Option Nat := none
  permissions : Option (List Perm) := none
  status : Option Int := none
  events : Option Bool := none
  format : Option Nat := none
  unit : Option Nat := none
  minValue : Option Nat := none
  maxValue : Option Nat := none
  minStep : Option Nat := none
  maxLen : Option Nat := none
  response : Option Bool := none
  deriving DecidableEq, Repr

/-- Body of the per-element loop of `Server.PutCharacteristics`
(characteristic handler lines 162-193), in source order: resolve the
characteristic (absent → one element with
`ServiceCommunicationFailure`); if `r` is present (`d.Response != nil`,
whatever its value) append an element echoing the value read *before*
the write; if `value` is present apply the write hook; if `ev` is
present, a non-observable characteristic appends the element with
`NotificationNotSupported` (the same `cdata` object — so an element
already appended for `r` shows the status too), otherwise the events
map entry for the remote address is set.  Returns the appended
elements and the updated characteristic list. -/
def putOne (cs : List Characteristic) (remote : String) (d : CharacteristicData) :
    List CharacteristicData × List Characteristic :=
  match findC cs d.aid d.iid with
  | none =>
    ([{ aid := d.aid, iid := d.iid, status := some JsonStatusServiceCommunicationFailure }], cs)
  | some c =>
    let echo : Option Nat := if d.response.isSome then some c.val else none
    let cs₁ := match d.value with
      | some v => updateC cs d.aid d.iid fun e => { e with val := v }
      | none => cs
    match d.events with
    | none =>
      ((if d.response.isSome then [{ aid := d.aid, iid := d.iid, value := echo }] else []), cs₁)
    | some b =>
      if IsObservable c then
        ((if d.response.isSome then [{ aid := d.aid, iid := d.iid, value := echo }] else []),
         updateC cs₁ d.aid d.iid fun e => { e with events := mapSet e.events remote b })
      else
        let entry : CharacteristicData :=
          { aid := d.aid, iid := d.iid, value := echo,
            status := some JsonStatusNotificationNotSupported }
        ((if d.response.isSome then [entry] else []) ++ [entry], cs₁)

/-- The full element loop of `Server.PutCharacteristics`. -/
def putList : List Characteristic → String → List CharacteristicData →
    List CharacteristicData × List Characteristic
  | cs, _, [] => ([], cs)
  | cs, remote, d :: ds =>
    let r₁ := putOne cs remote d
    let r₂ := putList r₁.2 remote ds
    (r₁.1 ++ r₂.1, r₂.2)

/-- Reply of `Server.PutCharacteristics`: `204 No Content`,
`207 multi-status` with the collected elements, or a JSON error. -/
inductive PutReply where
  | noContent
  | multiStatus (arr : List CharacteristicData)
  | jsonErr (status : Int)
  deriving DecidableEq, Repr

/-- Handler `Server.PutCharacteristics` (characteristic handler lines 143-207):
requires a paired server, runs the element loop, replies `204` when no
element produced an entry and multi-status otherwise. -/
def PutCharacteristics (paired : Bool) (cs : List Characteristic) (remote : String)
    (ds : List CharacteristicData) : PutReply × List Characteristic :=
  if paired = false then (.jsonErr JsonStatusInsufficientPrivileges, cs)
  else
    let r := putList cs remote ds
    if r.1 = [] then (.noContent, r.2) else (.multiStatus r.1, r.2)

/-- Go `strings.Split` for a one-character separator, on a
`List Char` model of strings: `[]` splits to `[[]]`, separators at the
ends produce empty fields. -/
def splitOnChar (sep : Char) (s : List Char) : List (List Char) :=
  s.foldr
    (fun ch acc =>
      match acc with
      | [] => [[ch]]
      | a :: rest => if ch = sep then [] :: a :: rest else (ch :: a) :: rest)
    [[]]

/-- Decimal value of a digit string. -/
def digitsVal (s : List Char) : Nat :=
  s.foldl (fun a ch => a * 10 + (ch.toNat - 48)) 0

/-- Modelled from the spec: `to.Uint64` of package `github.com/xiam/to`
(not under src/): parse a base-10 unsigned 64-bit integer, yielding 0 on
any parse failure (empty, non-digit, overflow). -/
def toUint64 (s : List Char) : Nat :=
  if s ≠ [] ∧ s.all Char.isDigit ∧ digitsVal s < 2 ^ 64 then digitsVal s else 0

/-- Body of the per-id loop of `Server.GetCharacteristics`
(characteristic handler lines 78-127) after the id has been parsed:
build the element, with `ServiceCommunicationFailure` status when the
characteristic is missing (flagging the overall error), else the value
and the projections selected by the `meta`/`perms`/`type`/`ev` flags. -/
def getOneData (cs : List Characteristic) (remote : String)
    (meta perms typ ev : Bool) (aid iid : Nat) : CharacteristicData × Bool :=
  match findC cs aid iid with
  | none =>
    ({ aid := aid, iid := iid, status := some JsonStatusServiceCommunicationFailure }, true)
  | some c =>
    ({ aid := aid, iid := iid,
       value := some c.val,
       format := if meta then some c.format else none,
       unit := if meta then some c.unit else none,
       minValue := if meta then c.minVal else none,
       maxValue := if meta then c.maxVal else none,
       minStep := if meta then c.stepVal else none,
       maxLen := if meta && c.maxLen > 0 then some c.maxLen else none,
       events := if ev then some ((mapGet c.events remote).getD false) else none,
       permissions := if perms then some c.perms else none,
       typ := if typ then some c.typ else none }, false)

/-- The id loop of `Server.GetCharacteristics` (lines 73-128): split
each comma-separated element on `"."`; an element that does not give
exactly two parts is skipped (`continue`) — it contributes neither a
response element nor an error; otherwise the two parts are parsed with
`to.Uint64` and the element is resolved. -/
def getElems (cs : List Characteristic) (remote : String)
    (meta perms typ ev : Bool) : List (List Char) → List CharacteristicData × Bool
  | [] => ([], false)
  | str :: rest =>
    let tail := getElems cs remote meta perms typ ev rest
    match splitOnChar '.' str with
    | [a, b] =>
      let r := getOneData cs remote meta perms typ ev (toUint64 a) (toUint64 b)
      (r.1 :: tail.1, r.2 || tail.2)
    | _ => tail

/-- Reply of `Server.GetCharacteristics`: `200 OK` with the elements,
`207 multi-status`, or a JSON error. -/
inductive GetReply where
  | ok (arr : List CharacteristicData)
  | multiStatus (arr : List CharacteristicData)
  | jsonErr (status : Int)
  deriving DecidableEq, Repr

/-- Handler `Server.GetCharacteristics` (characteristic handler lines 52-141):
requires a paired server and a non-empty `id` query value, runs the id
loop, and replies multi-status iff some resolved element failed. -/
def GetCharacteristics (paired : Bool) (cs : List Characteristic) (remote : String)
    (meta perms typ ev : Bool) (idParam : List Char) : GetReply :=
  if paired = false then .jsonErr JsonStatusInsufficientPrivileges
  else if idParam.length = 0 then .jsonErr JsonStatusInvalidValueInRequest
  else
    let r := getElems cs remote meta perms typ ev (splitOnChar ',' idParam)
    if r.2 then .multiStatus r.1 else .ok r.1

/-! ## Pairings administration -/

/-- Modelled from the spec: the TLV method constants used by the
pairings endpoint (`MethodAddPairing`, `MethodDeletePairing`,
`MethodListPairings`; the constants file is not under src/). -/
inductive PairingMethod where
  | addPairing
  | deletePairing
  | listPairings
  deriving DecidableEq, Repr

/-- Modelled from the spec: TLV error codes (§6 of the spec: 1=Unknown,
2=Authentication, 6=Unavailable, 7=Busy). -/
inductive TlvErr where
  | unknown
  | authentication
  | unavailable
  | busy
  | invalidRequest
  deriving DecidableEq, Repr

/-- Structure `PairingPayload` (pairings.go lines 11-15). -/
structure PairingPayload where
  identifier : String
  publicKey : List Nat
  permission : Nat
  deriving DecidableEq, Repr

/-- Reply of the pairings endpoint: a TLV error, `State=2`, or the
pairing list. -/
inductive PairingsReply where
  | err (e : TlvErr)
  | ok (state : Nat)
  | list (ps : List PairingPayload)
  deriving DecidableEq, Repr

/-- Result of one pairings request: the reply, the store afterwards and
the addresses of the connections that were closed. -/
structure PairingsResult where
  reply : PairingsReply
  store : List Pairing
  closed : List String
  deriving DecidableEq, Repr

/-- Modelled from the spec: the permission byte (0=user, 1=admin). -/
def PermissionAdmin : Nat := 1

/-- Function `storer.SavePairing` / `srv.savePairing`: write the pairing under
the key derived from its name, overwriting an existing entry (the store
is keyed by `hex(name).pairing`). -/
def savePairing (st : List Pairing) (p : Pairing) : List Pairing :=
  if st.any (·.name == p.name) then st.map (fun q => if q.name == p.name then p else q)
  else st ++ [p]

/-- Function `storer.DeletePairing` / `srv.deletePairing`: remove the entry
stored under the pairing's name. -/
def deletePairing (st : List Pairing) (name : String) : List Pairing :=
  st.filter fun q => q.name != name

/-- Modelled from the spec: `srv.pairedWithAdmin` (not under src/) —
some stored Pairing has admin permission. -/
def pairedWithAdmin (st : List Pairing) : Bool :=
  st.any (·.permission == PermissionAdmin)

/-- Handler `Server.Pairings` (pairings.go lines 17-153), after session lookup
and TLV decoding.  `sess` is the requester's `Session.Pairing`;
`conns` models the connection registry paired with the result of
`GetSession` per address: `(addr, some pr)` when the sessions map holds
a `*Session` with pairing `pr` for `addr`, `(addr, none)` when
`GetSession` fails for it (no entry, or a pair-setup / pair-verify
value).  AddPairing and DeletePairing require an admin session;
DeletePairing then closes every connection when no admin pairing
remains, and otherwise exactly the connections whose session pairing
name is the deleted one. -/
def Pairings (st : List Pairing) (sess : Pairing) (conns : List (String × Option Pairing))
    (method : PairingMethod) (ident : String) (pub : List Nat) (perm : Nat) :
    PairingsResult :=
  match method with
  | .addPairing =>
    if sess.permission ≠ PermissionAdmin then ⟨.err .authentication, st, []⟩
    else
      match st.find? (·.name == ident) with
      | none => ⟨.ok 2, savePairing st ⟨ident, pub, perm⟩, []⟩
      | some p =>
        if p.publicKey ≠ pub then ⟨.err .unknown, st, []⟩
        else ⟨.ok 2, savePairing st { p with permission := perm }, []⟩
  | .deletePairing =>
    if sess.permission ≠ PermissionAdmin then ⟨.err .authentication, st, []⟩
    else
      match st.find? (·.name == ident) with
      | none => ⟨.err .unknown, st, []⟩
      | some p =>
        let st' := deletePairing st p.name
        let closed :=
          if pairedWithAdmin st' then
            (conns.filter fun e =>
              match e.2 with
              | some pr => pr.name == p.name
              | none => false).map Prod.fst
          else conns.map Prod.fst
        ⟨.ok 2, st', closed⟩
  | .listPairings =>
    ⟨.list (st.map fun p => ⟨p.name, p.publicKey, p.permission⟩), st, []⟩

/-! ## Filesystem store -/

/-- The effect of `file.Write(value)` on a file opened with
`O_WRONLY|O_CREATE` (no `O_TRUNC`): the write starts at offset 0 and
overwrites in place, leaving any trailing bytes of the previous
content (fsStore.Set, store lines 49-59). -/
def fsWrite (old : List Nat) (v : List Nat) : List Nat :=
  v ++ old.drop v.length

/-- Function `fsStore.Set`: open-or-create the file for the key and write the
value without truncating. -/
def fsSet : List (String × List Nat) → String → List Nat → List (String × List Nat)
  | [], k, v => [(k, fsWrite [] v)]
  | (k', old) :: rest, k, v =>
    if k' == k then (k, fsWrite old v) :: rest else (k', old) :: fsSet rest k v

/-- Function `fsStore.Get` (store lines 61-81): read the whole file contents
(in 32-byte chunks in the source), `none` when the file is absent. -/
def fsGet (files : List (String × List Nat)) (key : String) : Option (List Nat) :=
  (files.find? (·.1 == key)).map (·.2)

/-! ## Lemmas about the little-endian encoding -/

theorem leDecode_leBytes : ∀ (n c : Nat), leDecode (leBytes n c) = c % 256 ^ n
  | 0, c => by simp [leBytes, leDecode, Nat.mod_one]
  | n + 1, c => by
    have ih := leDecode_leBytes n (c / 256)
    rw [leBytes, leDecode, ih, pow_succ', Nat.mod_mul]

theorem leBytes_mod : ∀ (n c : Nat), leBytes n (c % 256 ^ n) = leBytes n c
  | 0, _ => rfl
  | n + 1, c => by
    have h1 : c % 256 ^ (n + 1) % 256 = c % 256 :=
      Nat.mod_mod_of_dvd c (dvd_pow_self 256 n.succ_ne_zero)
    have h2 : c % 256 ^ (n + 1) / 256 = c / 256 % 256 ^ n := by
      rw [pow_succ']
      exact Nat.mod_mul_right_div_self c 256 (256 ^ n)
    rw [leBytes, h1, h2, leBytes_mod n (c / 256), leBytes]

theorem leBytes_eq_iff {n a b : Nat} :
    leBytes n a = leBytes n b ↔ a % 256 ^ n = b % 256 ^ n := by
  constructor
  · intro h
    have := congrArg leDecode h
    rwa [leDecode_leBytes, leDecode_leBytes] at this
  · intro h
    rw [← leBytes_mod n a, ← leBytes_mod n b, h]

/-- Consecutive counters always produce distinct 8-byte nonces. -/
theorem leBytes8_succ_ne (c : Nat) : leBytes 8 (c + 1) ≠ leBytes 8 c := by
  intro h
  rw [leBytes_eq_iff] at h
  have hmod : c ≡ c + 1 [MOD 256 ^ 8] := h.symm
  have hdvd : 256 ^ 8 ∣ 1 := by
    have h2 := (Nat.modEq_iff_dvd' (Nat.le_succ c)).1 hmod
    have h3 : c.succ - c = 1 := by omega
    rwa [h3] at h2
  have h1 : (256 : Nat) ^ 8 = 1 := Nat.dvd_one.mp hdvd
  norm_num at h1

/-- Within a window of at most `2 ^ 64` counters the nonces are injective. -/
theorem leBytes8_inj {c i j : Nat} (hi : i < 2 ^ 64) (hj : j < 2 ^ 64)
    (h : leBytes 8 (c + i) = leBytes 8 (c + j)) : i = j := by
  rw [leBytes_eq_iff] at h
  have hbase : (256 : Nat) ^ 8 = 2 ^ 64 := by norm_num
  have hmod : i ≡ j [MOD 256 ^ 8] := Nat.ModEq.add_left_cancel' c h
  have : i % 256 ^ 8 = j % 256 ^ 8 := hmod
  rwa [hbase, Nat.mod_eq_of_lt hi, Nat.mod_eq_of_lt hj] at this

/-! ## Lemmas about packet splitting -/

@[simp]
theorem packetsGo_nil (size : Nat) : ∀ fuel, packetsGo size fuel [] = []
  | 0 => rfl
  | _ + 1 => by simp [packetsGo]

theorem packetsGo_ne_nil {size : Nat} (hs : size ≠ 0) {bs : List Nat} (hbs : bs ≠ []) :
    ∀ {fuel : Nat}, bs.length ≤ fuel → packetsGo size fuel bs ≠ []
  | 0, h => by
    exact absurd (List.eq_nil_of_length_eq_zero (Nat.le_zero.mp h)) hbs
  | fuel + 1, _ => by
    simp [packetsGo, hs, hbs]

theorem packetsGo_join {size : Nat} (hs : size ≠ 0) :
    ∀ (fuel : Nat) (bs : List Nat), bs.length ≤ fuel →
      ((packetsGo size fuel bs).map packet.value).flatten = bs
  | 0, bs, h => by
    have : bs = [] := List.eq_nil_of_length_eq_zero (Nat.le_zero.mp h)
    subst this
    simp
  | fuel + 1, bs, h => by
    match bs with
    | [] => simp
    | x :: xs =>
      have hlen : ((x :: xs).drop size).length ≤ fuel := by
        simp only [List.length_drop, List.length_cons]
        simp only [List.length_cons] at h
        omega
      have ih := packetsGo_join hs fuel ((x :: xs).drop size) hlen
      simp only [packetsGo, hs, false_or, List.cons_ne_nil, if_false, List.map_cons,
        List.flatten_cons, ih]
      exact List.take_append_drop size (x :: xs)

theorem packetsGo_length_le (size : Nat) :
    ∀ (fuel : Nat) (bs : List Nat), (packetsGo size fuel bs).length ≤ bs.length
  | 0, bs => by simp [packetsGo]
  | fuel + 1, bs => by
    match bs with
    | [] => simp
    | x :: xs =>
      by_cases hs : size = 0
      · simp [packetsGo, hs]
      · have ih := packetsGo_length_le size fuel ((x :: xs).drop size)
        simp only [packetsGo, hs, false_or, List.cons_ne_nil, if_false, List.length_cons]
        simp only [List.length_drop, List.length_cons] at ih ⊢
        omega

theorem packetsGo_le_size (size : Nat) :
    ∀ (fuel : Nat) (bs : List Nat) (p : packet), p ∈ packetsGo size fuel bs →
      p.length ≤ size ∧ p.length = p.value.length
  | 0, bs, p => by simp [packetsGo]
  | fuel + 1, bs, p => by
    match bs with
    | [] => simp
    | x :: xs =>
      by_cases hs : size = 0
      · simp [packetsGo, hs]
      · simp only [packetsGo, hs, false_or, List.cons_ne_nil, if_false, List.mem_cons]
        rintro (rfl | hmem)
        · refine ⟨?_, rfl⟩
          simp [List.length_take]
        · exact packetsGo_le_size size fuel ((x :: xs).drop size) p hmem

theorem packetsGo_interior (size : Nat) :
    ∀ (fuel : Nat) (bs : List Nat) (i : Nat),
      i + 1 < (packetsGo size fuel bs).length →
      ∃ p, (packetsGo size fuel bs)[i]? = some p ∧ p.length = size
  | 0, bs, i => by simp [packetsGo]
  | fuel + 1, bs, i => by
    match bs with
    | [] => simp
    | x :: xs =>
      by_cases hs : size = 0
      · simp [packetsGo, hs]
      · simp only [packetsGo, hs, false_or, List.cons_ne_nil, if_false, List.length_cons]
        intro hlt
        match i with
        | 0 =>
          refine ⟨_, List.getElem?_cons_zero, ?_⟩
          have hrest : packetsGo size fuel ((x :: xs).drop size) ≠ [] := by
            intro hnil
            rw [hnil] at hlt
            simp at hlt
          have hdrop : (x :: xs).drop size ≠ [] := by
            intro hnil
            rw [hnil] at hrest
            simp at hrest
          have hgt : size < (x :: xs).length := by
            by_contra hle
            exact hdrop (List.drop_eq_nil_of_le (Nat.le_of_not_lt hle))
          simp only [List.length_take]
          simp only [List.length_cons] at hgt ⊢
          omega
        | i + 1 =>
          simp only [List.getElem?_cons_succ]
          exact packetsGo_interior size fuel ((x :: xs).drop size) i (by omega)

theorem packetsGo_last {size : Nat} (hs : size ≠ 0) :
    ∀ (fuel : Nat) (bs : List Nat), bs.length ≤ fuel → ∀ p,
      (packetsGo size fuel bs).getLast? = some p →
      (p.length < size ↔ ¬ size ∣ bs.length)
  | 0, bs, h, p => by
    have : bs = [] := List.eq_nil_of_length_eq_zero (Nat.le_zero.mp h)
    subst this
    simp
  | fuel + 1, bs, h, p => by
    match bs with
    | [] => simp
    | x :: xs =>
      simp only [packetsGo, hs, false_or, List.cons_ne_nil, if_false]
      by_cases hdrop : (x :: xs).drop size = []
      · have hle : (x :: xs).length ≤ size := by
          by_contra hgt
          have hne : (x :: xs).drop size ≠ [] := by
            intro hnil
            have := congrArg List.length hnil
            simp only [List.length_drop, List.length_nil] at this
            omega
          exact hne hdrop
        rw [hdrop, packetsGo_nil]
        intro hlast
        have hp : p = packet.mk ((x :: xs).take size).length ((x :: xs).take size) := by
          simpa [List.getLast?] using hlast.symm
        have hplen : p.length = (x :: xs).length := by
          rw [hp]
          simp only [List.length_take]
          simp only [List.length_cons] at hle ⊢
          omega
        rw [hplen]
        have hpos : 0 < (x :: xs).length := by simp
        constructor
        · intro hlt hdvd
          have := Nat.le_of_dvd hpos hdvd
          omega
        · intro hnd
          rcases Nat.lt_or_ge (x :: xs).length size with hlt | hge
          · exact hlt
          · have heq : (x :: xs).length = size := le_antisymm hle hge
            exact absurd (heq ▸ dvd_refl size) hnd
      · have hlen : ((x :: xs).drop size).length ≤ fuel := by
          simp only [List.length_drop, List.length_cons]
          simp only [List.length_cons] at h
          omega
        obtain ⟨r, rest', hr⟩ :=
          List.exists_cons_of_ne_nil (packetsGo_ne_nil hs hdrop hlen)
        intro hlast
        rw [hr, List.getLast?_cons_cons] at hlast
        have ih := packetsGo_last hs fuel ((x :: xs).drop size) hlen p
          (by rw [hr]; exact hlast)
        have hgt : size < (x :: xs).length := by
          by_contra hle
          exact hdrop (List.drop_eq_nil_of_le (Nat.le_of_not_lt hle))
        rw [ih]
        simp only [List.length_drop]
        constructor
        · intro hnd hd
          exact hnd (Nat.dvd_sub' hd dvd_rfl)
        · intro hnd hd
          have hsum : size ∣ (x :: xs).length - size + size := Nat.dvd_add hd dvd_rfl
          rw [Nat.sub_add_cancel (Nat.le_of_lt hgt)] at hsum
          exact hnd hsum

theorem packetsGo_join_take (size : Nat) :
    ∀ (fuel : Nat) (bs : List Nat) (m : Nat), bs.length ≤ fuel →
      (((packetsGo size fuel bs).take m).map packet.value).flatten = bs.take (m * size)
  | 0, bs, m, h => by
    have : bs = [] := List.eq_nil_of_length_eq_zero (Nat.le_zero.mp h)
    subst this
    simp
  | fuel + 1, bs, m, h => by
    match bs with
    | [] => simp
    | x :: xs =>
      by_cases hs : size = 0
      · simp [packetsGo, hs]
      · match m with
        | 0 => simp
        | m + 1 =>
          have hlen : ((x :: xs).drop size).length ≤ fuel := by
            simp only [List.length_drop, List.length_cons]
            simp only [List.length_cons] at h
            omega
          have ih := packetsGo_join_take size fuel ((x :: xs).drop size) m hlen
          simp only [packetsGo, hs, false_or, List.cons_ne_nil, if_false]
          rw [List.take_succ_cons, List.map_cons, List.flatten_cons, ih,
            Nat.succ_mul, Nat.add_comm (m * size) size, List.take_add]

/-! ## Lemmas about the encrypted stream -/

@[simp]
theorem encryptPackets_length (key : List Nat) :
    ∀ (c : Nat) (ps : List packet), (encryptPackets key c ps).length = ps.length
  | _, [] => rfl
  | c, p :: ps => by
    simp [encryptPackets, encryptPackets_length key (c + 1) ps]

theorem encryptPackets_getElem? (key : List Nat) :
    ∀ (c i : Nat) (ps : List packet),
      (encryptPackets key c ps)[i]? = ps[i]?.map
        (fun p => Frame.mk p.length
          (SealedBox.mk key (leBytes 8 (c + i)) p.value (leBytes 2 p.length)))
  | c, i, [] => by simp [encryptPackets]
  | c, 0, p :: ps => by simp [encryptPackets, EncryptAndSeal]
  | c, i + 1, p :: ps => by
    have h := encryptPackets_getElem? key (c + 1) i ps
    have he : c + 1 + i = c + (i + 1) := by omega
    rw [he] at h
    simpa [encryptPackets] using h

theorem encryptPackets_take (key : List Nat) :
    ∀ (c m : Nat) (ps : List packet),
      encryptPackets key c (ps.take m) = (encryptPackets key c ps).take m
  | _, 0, ps => by simp [encryptPackets]
  | _, _ + 1, [] => by simp [encryptPackets]
  | c, m + 1, p :: ps => by
    simp [encryptPackets, List.take_succ_cons, encryptPackets_take key (c + 1) m ps]

theorem decryptFrames_cons_full (key : List Nat) (c : Nat) (f : Frame) (fs : List Frame)
    (hk : f.box.key = key) (hn : f.box.nonce = leBytes 8 c)
    (ha : f.box.aad = leBytes 2 f.length) (hfull : ¬ f.length < PacketLengthMax) :
    decryptFrames key c (f :: fs) =
      ((decryptFrames key (c + 1) fs).1.map (f.box.msg ++ ·),
        (decryptFrames key (c + 1) fs).2) := by
  have hdv : DecryptAndVerify key (leBytes 8 c) f.box (leBytes 2 f.length) = some f.box.msg := by
    simp [DecryptAndVerify, hk, hn, ha]
  simp only [decryptFrames, hdv, hfull, if_false]
  rcases hdf : decryptFrames key (c + 1) fs with ⟨r, c'⟩
  rcases r with _ | rest <;> simp

theorem decryptFrames_cons_short (key : List Nat) (c : Nat) (f : Frame) (fs : List Frame)
    (hk : f.box.key = key) (hn : f.box.nonce = leBytes 8 c)
    (ha : f.box.aad = leBytes 2 f.length) (hshort : f.length < PacketLengthMax) :
    decryptFrames key c (f :: fs) = (some f.box.msg, c + 1) := by
  have hdv : DecryptAndVerify key (leBytes 8 c) f.box (leBytes 2 f.length) = some f.box.msg := by
    simp [DecryptAndVerify, hk, hn, ha]
  simp only [decryptFrames, hdv, hshort, if_true]

theorem decryptFrames_cons_badnonce (key : List Nat) (c : Nat) (f : Frame) (fs : List Frame)
    (hn : f.box.nonce ≠ leBytes 8 c) :
    decryptFrames key c (f :: fs) = (none, c + 1) := by
  have hdv : DecryptAndVerify key (leBytes 8 c) f.box (leBytes 2 f.length) = none := by
    simp [DecryptAndVerify, hn]
  simp only [decryptFrames, hdv]

theorem decryptFrames_bounds (key : List Nat) :
    ∀ (c : Nat) (fs : List Frame),
      c ≤ (decryptFrames key c fs).2 ∧ (decryptFrames key c fs).2 ≤ c + fs.length
  | c, [] => by simp [decryptFrames]
  | c, f :: fs => by
    have ih := decryptFrames_bounds key (c + 1) fs
    simp only [decryptFrames]
    rcases DecryptAndVerify key (leBytes 8 c) f.box (leBytes 2 f.length) with _ | msg
    · simp only [List.length_cons]
      omega
    · by_cases hlt : f.length < PacketLengthMax
      · simp only [hlt, if_true, List.length_cons]
        omega
      · simp only [hlt, if_false]
        rcases hdf : decryptFrames key (c + 1) fs with ⟨r, c'⟩
        rw [hdf] at ih
        rcases r with _ | rest <;> simp only [List.length_cons] <;> omega

theorem decryptFrames_fails (key : List Nat) :
    ∀ (i : Nat) (c : Nat) (gs : List Frame),
      (∀ j, j < i → ∃ f, gs[j]? = some f ∧ f.box.key = key ∧
        f.box.nonce = leBytes 8 (c + j) ∧ f.box.aad = leBytes 2 f.length ∧
        ¬ f.length < PacketLengthMax) →
      (∀ f, gs[i]? = some f → f.box.nonce ≠ leBytes 8 (c + i)) →
      gs[i]? ≠ none →
      (decryptFrames key c gs).1 = none
  | 0, c, gs => by
    intro _ hbad hsome
    match gs with
    | [] => simp at hsome
    | f :: fs =>
      have hb := hbad f (by simp)
      rw [decryptFrames_cons_badnonce key c f fs (by simpa using hb)]
  | i + 1, c, gs => by
    intro hpre hbad hsome
    match gs with
    | [] => simp at hsome
    | f :: fs =>
      obtain ⟨f0, hf0, hk, hn, ha, hfull⟩ := hpre 0 (by omega)
      obtain rfl : f = f0 := by simpa using hf0
      have hn' : f.box.nonce = leBytes 8 c := by simpa using hn
      rw [decryptFrames_cons_full key c f fs hk hn' ha hfull]
      have ih := decryptFrames_fails key i (c + 1) fs
        (fun j hj => by
          obtain ⟨g, hg, h1, h2, h3, h4⟩ := hpre (j + 1) (by omega)
          refine ⟨g, by simpa using hg, h1, ?_, h3, h4⟩
          have : c + (j + 1) = c + 1 + j := by omega
          rwa [this] at h2)
        (fun g hg => by
          have := hbad g (by simpa using hg)
          have he : c + (i + 1) = c + 1 + i := by omega
          rwa [he] at this)
        (by simpa using hsome)
      simp [ih]

theorem decryptFrames_encrypt_full (key : List Nat) :
    ∀ (c : Nat) (ps : List packet),
      (∀ p ∈ ps, ¬ p.length < PacketLengthMax) →
      decryptFrames key c (encryptPackets key c ps) =
        (some ((ps.map packet.value).flatten), c + ps.length)
  | c, [], _ => by simp [decryptFrames, encryptPackets]
  | c, p :: ps, hfull => by
    have ih := decryptFrames_encrypt_full key (c + 1) ps
      (fun q hq => hfull q (List.mem_cons_of_mem p hq))
    rw [encryptPackets,
      decryptFrames_cons_full key c
        (Frame.mk p.length (EncryptAndSeal key (leBytes 8 c) p.value (leBytes 2 p.length)))
        (encryptPackets key (c + 1) ps) rfl rfl rfl (hfull p (List.mem_cons_self p ps)), ih]
    simp only [Option.map_some', List.map_cons, List.flatten_cons, List.length_cons,
      Prod.mk.injEq, EncryptAndSeal, true_and]
    omega

theorem decryptFrames_encryptPackets_go (key : List Nat) :
    ∀ (fuel : Nat) (bs : List Nat) (c : Nat), bs.length ≤ fuel →
      decryptFrames key c (encryptPackets key c (packetsGo PacketLengthMax fuel bs)) =
        (some bs, c + (packetsGo PacketLengthMax fuel bs).length)
  | 0, bs, c, h => by
    have hb : bs = [] := List.eq_nil_of_length_eq_zero (Nat.le_zero.mp h)
    subst hb
    simp [decryptFrames, encryptPackets]
  | fuel + 1, bs, c, h => by
    match bs with
    | [] => simp [decryptFrames, encryptPackets]
    | x :: xs =>
      rw [packetsGo, if_neg (by simp [PacketLengthMax]), encryptPackets]
      by_cases hlt : ((x :: xs).take PacketLengthMax).length < PacketLengthMax
      · have hlen : (x :: xs).length < PacketLengthMax := by
          simp only [List.length_take] at hlt
          omega
        have hdrop : (x :: xs).drop PacketLengthMax = [] :=
          List.drop_eq_nil_of_le (Nat.le_of_lt hlen)
        have hbs : (x :: xs).take PacketLengthMax = x :: xs :=
          List.take_of_length_le (Nat.le_of_lt hlen)
        rw [hdrop, packetsGo_nil]
        rw [show encryptPackets key (c + 1) [] = [] from rfl]
        rw [decryptFrames_cons_short key c
          (Frame.mk ((x :: xs).take PacketLengthMax).length
            (EncryptAndSeal key (leBytes 8 c) ((x :: xs).take PacketLengthMax)
              (leBytes 2 ((x :: xs).take PacketLengthMax).length)))
          [] rfl rfl rfl hlt]
        simp [hbs, EncryptAndSeal]
      · have hlen2 : ((x :: xs).drop PacketLengthMax).length ≤ fuel := by
          simp only [List.length_drop, List.length_cons]
          simp only [List.length_cons] at h
          have : PacketLengthMax ≠ 0 := by simp [PacketLengthMax]
          omega
        have ih := decryptFrames_encryptPackets_go key fuel
          ((x :: xs).drop PacketLengthMax) (c + 1) hlen2
        rw [decryptFrames_cons_full key c
          (Frame.mk ((x :: xs).take PacketLengthMax).length
            (EncryptAndSeal key (leBytes 8 c) ((x :: xs).take PacketLengthMax)
              (leBytes 2 ((x :: xs).take PacketLengthMax).length)))
          (encryptPackets key (c + 1) (packetsGo PacketLengthMax fuel ((x :: xs).drop PacketLengthMax)))
          rfl rfl rfl hlt, ih]
        simp only [Option.map_some', List.length_cons, Prod.mk.injEq, EncryptAndSeal]
        exact ⟨congrArg some (List.take_append_drop PacketLengthMax (x :: xs)), by omega⟩

theorem encryptPackets_map_msg (key : List Nat) :
    ∀ (c : Nat) (ps : List packet),
      (encryptPackets key c ps).map (fun f => f.box.msg) = ps.map packet.value
  | _, [] => rfl
  | c, p :: ps => by
    simp [encryptPackets, EncryptAndSeal, encryptPackets_map_msg key (c + 1) ps]

/-- Two distinct lists of the same length have a first position where
they disagree. -/
theorem exists_first_diff {α : Type} :
    ∀ (g F : List α), g.length = F.length → g ≠ F →
      ∃ i, i < F.length ∧ (∀ j, j < i → g[j]? = F[j]?) ∧ g[i]? ≠ F[i]?
  | [], [], _, hne => absurd rfl hne
  | [], _ :: _, hlen, _ => by simp at hlen
  | _ :: _, [], hlen, _ => by simp at hlen
  | x :: gs, y :: Fs, hlen, hne => by
    by_cases hxy : x = y
    · subst hxy
      have hne' : gs ≠ Fs := fun h => hne (by rw [h])
      have hlen' : gs.length = Fs.length := by simpa using hlen
      obtain ⟨i, hi, hpre, hdiff⟩ := exists_first_diff gs Fs hlen' hne'
      refine ⟨i + 1, by simpa using Nat.succ_lt_succ hi, ?_, by simpa using hdiff⟩
      intro j hj
      match j with
      | 0 => simp
      | j + 1 =>
        simp only [List.getElem?_cons_succ]
        exact hpre j (by omega)
    · exact ⟨0, by simp, fun j hj => absurd hj (by omega), by simpa using hxy⟩

/-! ## Claim theorems: the encrypted session transport -/

set_option maxRecDepth 1000000 in
/-- C1, counterexample.  The claim says that a dropped chunk always makes
the peer `Session.Decrypt` fail with an AEAD error.  Take mirrored
sessions in lockstep and a 1025-byte plaintext: `Encrypt` emits two
chunks (1024 + 1 bytes); if the terminal chunk is dropped (the peer
receives only the first frame), `Decrypt` succeeds and silently returns
the 1024-byte prefix — no error is reported. -/
theorem C1_counterexample :
    ((Session.mk ⟨"", [], 0⟩ [1] [2] 0 0).Encrypt (List.replicate 1025 3)).1.length = 2 ∧
    ((Session.mk ⟨"", [], 0⟩ [2] [1] 0 0).Decrypt
      (((Session.mk ⟨"", [], 0⟩ [1] [2] 0 0).Encrypt (List.replicate 1025 3)).1.take 1)).1
      = some (List.replicate 1024 3) := by
  constructor <;> rfl

/-- C1 (amended): for mirrored sessions in lockstep
(`s2.decryptKey = s1.encryptKey`, counters equal) and any plaintext of
fewer than `2 ^ 64 + 1` bytes: (1) feeding the output of `Encrypt` into
the peer `Decrypt` yields exactly the plaintext; (2) any reordering of
the chunks makes `Decrypt` fail with an AEAD error; (3) dropping a chunk
other than the terminal one makes `Decrypt` fail with an AEAD error;
(4) dropping a suffix of the chunks is NOT detected: `Decrypt` succeeds
and returns the corresponding plaintext prefix.  (4) is the one
deviation from the claim as stated, forced by `C1_counterexample`. -/
theorem C1_amended (s1 s2 : Session) (pt : List Nat)
    (hkey : s2.decryptKey = s1.encryptKey)
    (hcnt : s2.decryptCount = s1.encryptCount)
    (hsz : pt.length ≤ 2 ^ 64) :
    ((s2.Decrypt (s1.Encrypt pt).1).1 = some pt)
    ∧ (∀ g : List Frame, g.Perm (s1.Encrypt pt).1 → g ≠ (s1.Encrypt pt).1 →
        (s2.Decrypt g).1 = none)
    ∧ (∀ k, k + 1 < (s1.Encrypt pt).1.length →
        (s2.Decrypt ((s1.Encrypt pt).1.take k ++ (s1.Encrypt pt).1.drop (k + 1))).1 = none)
    ∧ (∀ m, m < (s1.Encrypt pt).1.length →
        (s2.Decrypt ((s1.Encrypt pt).1.take m)).1 = some (pt.take (m * PacketLengthMax))) := by
  have hD : ∀ gs : List Frame,
      (s2.Decrypt gs).1 = (decryptFrames s1.encryptKey s1.encryptCount gs).1 := by
    intro gs
    simp [Session.Decrypt, hkey, hcnt]
  have hE : (s1.Encrypt pt).1 =
      encryptPackets s1.encryptKey s1.encryptCount (packetsGo PacketLengthMax pt.length pt) :=
    rfl
  have hsmax : PacketLengthMax ≠ 0 := by simp [PacketLengthMax]
  have hpslen : (packetsGo PacketLengthMax pt.length pt).length ≤ pt.length :=
    packetsGo_length_le PacketLengthMax pt.length pt
  have hFlen : (s1.Encrypt pt).1.length = (packetsGo PacketLengthMax pt.length pt).length := by
    rw [hE, encryptPackets_length]
  -- an interior frame of the honest stream, in elaborated form
  have honest : ∀ j, j + 1 < (s1.Encrypt pt).1.length →
      ∃ f, (s1.Encrypt pt).1[j]? = some f ∧ f.box.key = s1.encryptKey ∧
        f.box.nonce = leBytes 8 (s1.encryptCount + j) ∧ f.box.aad = leBytes 2 f.length ∧
        ¬ f.length < PacketLengthMax := by
    intro j hj
    rw [hFlen] at hj
    obtain ⟨p, hp, hplen⟩ := packetsGo_interior PacketLengthMax pt.length pt j hj
    refine ⟨Frame.mk p.length
      (SealedBox.mk s1.encryptKey (leBytes 8 (s1.encryptCount + j)) p.value
        (leBytes 2 p.length)), ?_, rfl, rfl, rfl, ?_⟩
    · rw [hE, encryptPackets_getElem?, hp, Option.map_some']
    · simp [hplen]
  have hnonce : ∀ j f, (s1.Encrypt pt).1[j]? = some f →
      f.box.nonce = leBytes 8 (s1.encryptCount + j) := by
    intro j f hf
    rw [hE, encryptPackets_getElem?] at hf
    rcases hps : (packetsGo PacketLengthMax pt.length pt)[j]? with _ | p
    · rw [hps] at hf
      simp at hf
    · rw [hps] at hf
      simp only [Option.map_some', Option.some.injEq] at hf
      rw [← hf]
  refine ⟨?_, ?_, ?_, ?_⟩
  · -- round trip
    rw [hD, hE, decryptFrames_encryptPackets_go s1.encryptKey pt.length pt s1.encryptCount le_rfl]
  · -- reordering fails
    intro g hperm hne
    rw [hD]
    have hglen : g.length = (s1.Encrypt pt).1.length := hperm.length_eq
    obtain ⟨i, hi, hpre, hdiff⟩ := exists_first_diff g (s1.Encrypt pt).1 hglen hne
    have higl : i < g.length := by omega
    have hfi : g[i]? = some g[i] := List.getElem?_eq_getElem higl
    have hFi : (s1.Encrypt pt).1[i]? = some ((s1.Encrypt pt).1.get ⟨i, hi⟩) :=
      List.getElem?_eq_getElem hi
    have hneqv : g[i] ≠ (s1.Encrypt pt).1.get ⟨i, hi⟩ := by
      intro hcontra
      rw [hfi, hFi, hcontra] at hdiff
      exact hdiff rfl
    have hmem : g[i] ∈ (s1.Encrypt pt).1 :=
      hperm.subset (List.getElem?_mem hfi)
    obtain ⟨j0, hj0⟩ := List.mem_iff_getElem?.1 hmem
    have hj0lt : j0 < (s1.Encrypt pt).1.length := by
      by_contra hge
      rw [List.getElem?_eq_none (Nat.le_of_not_lt hge)] at hj0
      exact Option.noConfusion hj0
    have hbadnonce : (g[i]).box.nonce ≠ leBytes 8 (s1.encryptCount + i) := by
      intro heq
      have hj0n : (g[i]).box.nonce = leBytes 8 (s1.encryptCount + j0) := hnonce j0 _ hj0
      have hij : j0 = i := by
        refine leBytes8_inj ?_ ?_ (hj0n.symm.trans heq)
        · omega
        · omega
      subst hij
      exact hneqv (Option.some_inj.mp (hj0.symm.trans hFi))
    have hfail := decryptFrames_fails s1.encryptKey i s1.encryptCount g
      (fun j hj => by
        rw [hpre j hj]
        exact honest j (by omega))
      (fun f hf => by
        rw [hfi] at hf
        cases hf
        exact hbadnonce)
      (by rw [hfi]; exact Option.noConfusion)
    exact hfail
  · -- interior drop fails
    intro k hk
    rw [hD]
    have hlentake : ((s1.Encrypt pt).1.take k).length = k := by
      rw [List.length_take]
      omega
    apply decryptFrames_fails s1.encryptKey k s1.encryptCount
    · intro j hj
      have hidx : ((s1.Encrypt pt).1.take k ++ (s1.Encrypt pt).1.drop (k + 1))[j]? =
          (s1.Encrypt pt).1[j]? := by
        rw [List.getElem?_append]
        rw [hlentake]
        rw [if_pos hj]
        simp [List.getElem?_take, hj]
      rw [hidx]
      exact honest j (by omega)
    · intro f hf
      have hidx : ((s1.Encrypt pt).1.take k ++ (s1.Encrypt pt).1.drop (k + 1))[k]? =
          (s1.Encrypt pt).1[k + 1]? := by
        rw [List.getElem?_append]
        rw [hlentake]
        rw [if_neg (by omega)]
        have hzero : k - k = 0 := by omega
        rw [hzero, List.getElem?_drop]
      rw [hidx] at hf
      have hn := hnonce (k + 1) f hf
      rw [hn]
      intro hcontra
      have h1 : s1.encryptCount + (k + 1) = (s1.encryptCount + k) + 1 := by omega
      rw [h1] at hcontra
      exact leBytes8_succ_ne (s1.encryptCount + k) hcontra
    · have hlt : k + 1 < (s1.Encrypt pt).1.length := hk
      have hidx : ((s1.Encrypt pt).1.take k ++ (s1.Encrypt pt).1.drop (k + 1))[k]? =
          (s1.Encrypt pt).1[k + 1]? := by
        rw [List.getElem?_append]
        rw [hlentake]
        rw [if_neg (by omega)]
        have hzero : k - k = 0 := by omega
        rw [hzero, List.getElem?_drop]
      rw [hidx, List.getElem?_eq_getElem hlt]
      exact Option.noConfusion
  · -- dropping a suffix is silent
    intro m hm
    rw [hD, hE, ← encryptPackets_take]
    have hallfull : ∀ p ∈ (packetsGo PacketLengthMax pt.length pt).take m,
        ¬ p.length < PacketLengthMax := by
      intro p hp
      obtain ⟨j, hj⟩ := List.mem_iff_getElem?.1 hp
      rw [List.getElem?_take] at hj
      by_cases hjm : j < m
      · rw [if_pos hjm] at hj
        have hj1 : j + 1 < (packetsGo PacketLengthMax pt.length pt).length := by
          rw [hFlen] at hm
          omega
        obtain ⟨q, hq, hqlen⟩ := packetsGo_interior PacketLengthMax pt.length pt j hj1
        rw [hq] at hj
        cases hj
        simp [hqlen]
      · rw [if_neg hjm] at hj
        exact Option.noConfusion hj
    rw [decryptFrames_encrypt_full s1.encryptKey s1.encryptCount _ hallfull]
    rw [packetsGo_join_take PacketLengthMax pt.length pt m le_rfl]

/-- C1, witness for the amended theorem at a concrete instance. -/
theorem C1_amended_witness :
    ((Session.mk ⟨"", [], 0⟩ [2] [1] 0 0).Decrypt
      (((Session.mk ⟨"", [], 0⟩ [1] [2] 0 0).Encrypt [1, 2, 3]).1)).1 = some [1, 2, 3] :=
  (C1_amended ⟨⟨"", [], 0⟩, [1], [2], 0, 0⟩ ⟨⟨"", [], 0⟩, [2], [1], 0, 0⟩ [1, 2, 3]
    rfl rfl (by norm_num)).1

set_option maxRecDepth 1000000 in
/-- C2, counterexample.  The claim says the terminal chunk is always
strictly shorter than 0x400 bytes, in particular for inputs whose length
is a positive exact multiple of 0x400.  For an input of exactly 0x400
bytes, `packetsFromBytes` emits a single chunk of length exactly 0x400 —
the terminal chunk is not strictly shorter, and no empty end-of-message
chunk is appended. -/
theorem C2_counterexample :
    (packetsFromBytes (List.replicate 1024 0)).map packet.length = [1024] := by
  rfl

/-- C2 (amended): `Session.Encrypt` splits the input into the chunks of
`packetsFromBytes`; their concatenation is the input; every chunk is at
most 0x400 bytes; every non-terminal chunk is exactly 0x400 bytes; and
the terminal chunk is strictly shorter than 0x400 if and only if the
input length is NOT an exact multiple of 0x400 (for a positive exact
multiple the terminal chunk has length exactly 0x400; an empty input
yields no chunks). -/
theorem C2_amended (s : Session) (bs : List Nat) :
    ((s.Encrypt bs).1.map (fun f => f.box.msg) = (packetsFromBytes bs).map packet.value)
    ∧ (((packetsFromBytes bs).map packet.value).flatten = bs)
    ∧ (∀ p ∈ packetsFromBytes bs, p.length ≤ PacketLengthMax)
    ∧ (∀ i, i + 1 < (packetsFromBytes bs).length →
        ∃ p, (packetsFromBytes bs)[i]? = some p ∧ p.length = PacketLengthMax)
    ∧ (∀ p, (packetsFromBytes bs).getLast? = some p →
        (p.length < PacketLengthMax ↔ ¬ PacketLengthMax ∣ bs.length)) := by
  have hsmax : PacketLengthMax ≠ 0 := by simp [PacketLengthMax]
  refine ⟨?_, ?_, ?_, ?_, ?_⟩
  · exact encryptPackets_map_msg s.encryptKey s.encryptCount (packetsFromBytes bs)
  · exact packetsGo_join hsmax bs.length bs le_rfl
  · intro p hp
    exact (packetsGo_le_size PacketLengthMax bs.length bs p hp).1
  · intro i hi
    exact packetsGo_interior PacketLengthMax bs.length bs i hi
  · intro p hp
    exact packetsGo_last hsmax bs.length bs le_rfl p hp

/-- C2, witness for the amended theorem at a concrete input. -/
theorem C2_amended_witness :
    ((packetsFromBytes [5]).map packet.value).flatten = [5] :=
  (C2_amended ⟨⟨"", [], 0⟩, [], [], 0, 0⟩ [5]).2.1

/-- C3 (confirmed): `Session.Encrypt` advances `encryptCount` by exactly
the number of frames it emits (one per chunk, used as the AEAD nonce)
and leaves `decryptCount` alone; the peer `Session.Decrypt` of that
output advances `decryptCount` by exactly the number of chunks; on an
arbitrary frame stream `Decrypt` never decreases `decryptCount` and
advances it by at most one per frame (exactly one per consumed chunk,
including a chunk whose tag fails), and leaves `encryptCount` alone.
No session operation resets either counter. -/
theorem C3_counters (s s' : Session) (pt : List Nat) (gs : List Frame)
    (hkey : s'.decryptKey = s.encryptKey)
    (hcnt : s'.decryptCount = s.encryptCount) :
    ((s.Encrypt pt).2.encryptCount = s.encryptCount + (s.Encrypt pt).1.length)
    ∧ ((s.Encrypt pt).2.decryptCount = s.decryptCount)
    ∧ ((s'.Decrypt (s.Encrypt pt).1).2.decryptCount = s'.decryptCount + (s.Encrypt pt).1.length)
    ∧ (s'.decryptCount ≤ (s'.Decrypt gs).2.decryptCount)
    ∧ ((s'.Decrypt gs).2.decryptCount ≤ s'.decryptCount + gs.length)
    ∧ ((s'.Decrypt gs).2.encryptCount = s'.encryptCount) := by
  refine ⟨?_, rfl, ?_, ?_, ?_, rfl⟩
  · simp [Session.Encrypt]
  · have hgo := decryptFrames_encryptPackets_go s.encryptKey pt.length pt s.encryptCount le_rfl
    have hlen : (s.Encrypt pt).1.length = (packetsGo PacketLengthMax pt.length pt).length := by
      simp [Session.Encrypt, packetsFromBytes, packetsWithSizeFromBytes]
    simp only [Session.Decrypt, hkey, hcnt]
    rw [show (s.Encrypt pt).1 =
      encryptPackets s.encryptKey s.encryptCount (packetsGo PacketLengthMax pt.length pt) from rfl]
    rw [hgo]
    simp [encryptPackets_length]
  · exact (decryptFrames_bounds s'.decryptKey s'.decryptCount gs).1
  · exact (decryptFrames_bounds s'.decryptKey s'.decryptCount gs).2

/-- C3, witness at a concrete instance. -/
theorem C3_counters_witness :
    ((Session.mk ⟨"", [], 0⟩ [1] [2] 0 0).Encrypt [9]).2.encryptCount =
      0 + ((Session.mk ⟨"", [], 0⟩ [1] [2] 0 0).Encrypt [9]).1.length :=
  (C3_counters ⟨⟨"", [], 0⟩, [1], [2], 0, 0⟩ ⟨⟨"", [], 0⟩, [2], [1], 0, 0⟩ [9] []
    rfl rfl).1

/-! ## Claim theorems: the pair-setup gate -/

/-- C4, counterexample.  The claim says only an in-flight pair-setup
session of another remote-addr triggers the Busy refusal, and that a
session of another kind does not.  But the busy loop of
`Server.pairSetup` ignores the stored values: with an unpaired
accessory and a single established `*Session` held by `2.2.2.2:2`
(no pair-setup session anywhere), a pair-setup request from
`1.1.1.1:1` is refused with Busy. -/
theorem C4_counterexample :
    pairSetup false [("2.2.2.2:2", SessionKind.established)] "1.1.1.1:1"
      = PairSetupGate.busy
    ∧ ∀ e ∈ [("2.2.2.2:2", SessionKind.established)], e.2 ≠ SessionKind.setup := by
  decide

/-- C4 (amended): when the accessory is not paired, the pair-setup
endpoint replies Busy exactly when some remote-addr other than the
requester currently holds ANY session value in the registry —
pair-setup, pair-verify or an established Session alike. -/
theorem C4_amended (paired : Bool) (ss : List (String × SessionKind)) (remote : String)
    (h : paired = false) :
    (pairSetup paired ss remote = .busy ↔ ∃ e ∈ ss, e.1 ≠ remote) := by
  subst h
  constructor
  · intro hbusy
    by_cases hb : ss.any (fun e => e.1 != remote) = true
    · simpa [bne_iff_ne] using List.any_eq_true.mp hb
    · simp [pairSetup, hb] at hbusy
  · rintro ⟨e, he, hne⟩
    have hb : ss.any (fun e => e.1 != remote) = true :=
      List.any_eq_true.mpr ⟨e, he, by simpa [bne_iff_ne] using hne⟩
    simp [pairSetup, hb]

/-- C4, witness for the amended theorem at a concrete registry. -/
theorem C4_amended_witness :
    pairSetup false [("9.9.9.9:9", SessionKind.verify)] "1.1.1.1:1" = PairSetupGate.busy ↔
      ∃ e ∈ [("9.9.9.9:9", SessionKind.verify)], e.1 ≠ "1.1.1.1:1" :=
  C4_amended false [("9.9.9.9:9", SessionKind.verify)] "1.1.1.1:1" rfl

/-! ## Claim theorems: the filesystem store -/

theorem fsGet_fsSet :
    ∀ (files : List (String × List Nat)) (k : String) (v : List Nat),
      fsGet (fsSet files k v) k = some (fsWrite ((fsGet files k).getD []) v)
  | [], k, v => by simp [fsSet, fsGet]
  | (k', old) :: rest, k, v => by
    by_cases hk : k' == k
    · simp [fsSet, fsGet, hk]
    · have hb : (k' == k) = false := by
        simpa using hk
      simp only [fsSet, hb, if_false, fsGet, List.find?]
      exact fsGet_fsSet rest k v

/-- C9 (confirmed): `fsStore.Set` opens with `O_WRONLY|O_CREATE` and
writes without truncating.  Setting a key to `v1` (over at most
`|v1|` bytes of prior content) and then to a strictly shorter `v2`
leaves the file holding `v2` followed by the trailing bytes of `v1`:
`Get` returns `v2 ++ v1.drop |v2|`, of length `|v1|`, which is not
`v2` alone. -/
theorem C9_fs_store_no_truncate (files : List (String × List Nat)) (k : String)
    (v1 v2 : List Nat)
    (hprior : ((fsGet files k).getD []).length ≤ v1.length)
    (hlen : v2.length < v1.length) :
    fsGet (fsSet (fsSet files k v1) k v2) k = some (v2 ++ v1.drop v2.length)
    ∧ (v2 ++ v1.drop v2.length).length = v1.length
    ∧ v2 ++ v1.drop v2.length ≠ v2 := by
  have h1 : fsGet (fsSet files k v1) k = some v1 := by
    rw [fsGet_fsSet]
    unfold fsWrite
    rw [List.drop_eq_nil_of_le hprior, List.append_nil]
  have h2 : fsGet (fsSet (fsSet files k v1) k v2) k = some (fsWrite v1 v2) := by
    rw [fsGet_fsSet, h1, Option.getD_some]
  refine ⟨h2, ?_, ?_⟩
  · simp only [List.length_append, List.length_drop]
    omega
  · intro hcontra
    have := congrArg List.length hcontra
    simp only [List.length_append, List.length_drop] at this
    omega

/-- C9, witness at a concrete store. -/
theorem C9_fs_store_no_truncate_witness :
    fsGet (fsSet (fsSet [] "k" [1, 2, 3]) "k" [9]) "k" = some ([9] ++ [1, 2, 3].drop 1) :=
  (C9_fs_store_no_truncate [] "k" [1, 2, 3] [9] (by simp [fsGet]) (by norm_num)).1

/-! ## Claim theorems: pairings administration -/

/-- C7 (confirmed): for a MethodAddPairing request from an admin
session: if no Pairing with the submitted identifier exists, a new
Pairing with the submitted identifier, key and permission is appended
and the reply is State=2; if one exists and its stored public key
equals the submitted one, the reply is State=2 and only its permission
byte changes (name and key kept); if the keys differ the reply is
TlvError=Unknown and the store is unchanged.  The store is keyed by
name, so the hypothesis assumes the names are distinct. -/
theorem C7_add_pairing (st : List Pairing) (sess : Pairing)
    (conns : List (String × Option Pairing)) (ident : String) (pub : List Nat) (perm : Nat)
    (hadmin : sess.permission = PermissionAdmin)
    (hnodup : (st.map Pairing.name).Nodup) :
    (st.find? (fun q => q.name == ident) = none →
      Pairings st sess conns .addPairing ident pub perm =
        ⟨.ok 2, st ++ [⟨ident, pub, perm⟩], []⟩)
    ∧ (∀ p, st.find? (fun q => q.name == ident) = some p → p.publicKey = pub →
      Pairings st sess conns .addPairing ident pub perm =
        ⟨.ok 2, st.map fun q => if q.name = ident then ⟨q.name, q.publicKey, perm⟩ else q, []⟩)
    ∧ (∀ p, st.find? (fun q => q.name == ident) = some p → p.publicKey ≠ pub →
      Pairings st sess conns .addPairing ident pub perm = ⟨.err .unknown, st, []⟩) := by
  refine ⟨?_, ?_, ?_⟩
  · intro hfind
    have hany : st.any (fun q => q.name == ident) = false := by
      rw [List.any_eq_false]
      intro q hq
      have := List.find?_eq_none.mp hfind q hq
      simpa using this
    simp [Pairings, hadmin, hfind, savePairing, hany]
  · intro p hfind hkey
    subst hkey
    have hpmem := List.mem_of_find?_eq_some hfind
    have hpname : p.name = ident := by simpa using List.find?_some hfind
    have hany : st.any (fun q => q.name == p.name) = true :=
      List.any_eq_true.mpr ⟨p, hpmem, by simp⟩
    have hmap : (st.map fun q =>
        if q.name == ({ p with permission := perm } : Pairing).name
        then ({ p with permission := perm } : Pairing) else q)
        = st.map fun q => if q.name = ident then ⟨q.name, q.publicKey, perm⟩ else q := by
      apply List.map_congr_left
      intro q hq
      by_cases hqn : q.name = p.name
      · have hq_eq : q = p :=
          List.inj_on_of_nodup_map hnodup hq hpmem hqn
        subst hq_eq
        simp [hqn, hpname]
      · have hqn' : ¬ q.name = ident := by rw [← hpname]; exact hqn
        simp [hqn, hqn']
    have hsave : savePairing st { p with permission := perm } =
        st.map fun q => if q.name = ident then ⟨q.name, q.publicKey, perm⟩ else q := by
      unfold savePairing
      rw [if_pos (show (st.any fun q =>
        q.name == ({ p with permission := perm } : Pairing).name) = true by simpa using hany)]
      exact hmap
    simp [Pairings, hadmin, hfind, hsave]
  · intro p hfind hkey
    simp [Pairings, hadmin, hfind, hkey]

/-- C7, witness at a concrete store (fresh identifier branch). -/
theorem C7_add_pairing_witness :
    Pairings [] ⟨"admin", [1], 1⟩ [] .addPairing "bob" [7] 0 =
      ⟨.ok 2, [⟨"bob", [7], 0⟩], []⟩ :=
  (C7_add_pairing [] ⟨"admin", [1], 1⟩ [] "bob" [7] 0 rfl (by simp)).1 rfl

/-- C6 (confirmed): after a successful MethodDeletePairing of identifier
X from an admin session (the Pairing exists in the store): the reply is
State=2, the store loses exactly the entries named X, and then — if no
admin Pairing remains, every connection in the registry is closed;
otherwise exactly those connections whose session pairing name is X are
closed and all others stay open. -/
theorem C6_delete_pairing_closes (st : List Pairing) (sess : Pairing)
    (conns : List (String × Option Pairing)) (ident : String) (pub : List Nat) (perm : Nat)
    (p : Pairing)
    (hadmin : sess.permission = PermissionAdmin)
    (hfind : st.find? (fun q => q.name == ident) = some p) :
    ((Pairings st sess conns .deletePairing ident pub perm).reply = .ok 2)
    ∧ ((Pairings st sess conns .deletePairing ident pub perm).store =
        st.filter fun q => q.name != ident)
    ∧ ((¬ ∃ q ∈ (Pairings st sess conns .deletePairing ident pub perm).store,
          q.permission = PermissionAdmin) →
        (Pairings st sess conns .deletePairing ident pub perm).closed = conns.map Prod.fst)
    ∧ ((∃ q ∈ (Pairings st sess conns .deletePairing ident pub perm).store,
          q.permission = PermissionAdmin) →
        ∀ addr, addr ∈ (Pairings st sess conns .deletePairing ident pub perm).closed ↔
          ∃ e ∈ conns, e.1 = addr ∧ ∃ pr, e.2 = some pr ∧ pr.name = ident) := by
  have hpname : p.name = ident := by simpa using List.find?_some hfind
  subst hpname
  have hP : Pairings st sess conns .deletePairing p.name pub perm =
      ⟨.ok 2, deletePairing st p.name,
        if pairedWithAdmin (deletePairing st p.name) then
          (conns.filter fun e => match e.2 with
            | some pr => pr.name == p.name
            | none => false).map Prod.fst
        else conns.map Prod.fst⟩ := by
    simp [Pairings, hadmin, hfind]
  rw [hP]
  refine ⟨rfl, rfl, ?_, ?_⟩
  · intro hno
    have hpw : pairedWithAdmin (deletePairing st p.name) = false := by
      rw [pairedWithAdmin, List.any_eq_false]
      intro q hq
      push_neg at hno
      have := hno q hq
      simpa using this
    simp [hpw]
  · intro hyes
    have hpw : pairedWithAdmin (deletePairing st p.name) = true := by
      obtain ⟨q, hq, hqp⟩ := hyes
      exact List.any_eq_true.mpr ⟨q, hq, by simp [hqp]⟩
    simp only [hpw, if_true]
    intro addr
    constructor
    · intro haddr
      obtain ⟨e, he, heq⟩ := List.mem_map.mp haddr
      have hef := List.mem_filter.mp he
      refine ⟨e, hef.1, heq, ?_⟩
      rcases hsnd : e.2 with _ | pr
      · have hc := hef.2
        rw [hsnd] at hc
        simp at hc
      · refine ⟨pr, rfl, ?_⟩
        have hc := hef.2
        rw [hsnd] at hc
        simpa using hc
    · rintro ⟨e, he, heq, pr, hpr, hname⟩
      apply List.mem_map.mpr
      refine ⟨e, List.mem_filter.mpr ⟨he, ?_⟩, heq⟩
      rw [hpr]
      simpa using hname

/-- C6, witness at a concrete store and registry. -/
theorem C6_delete_pairing_closes_witness :
    (Pairings [⟨"a", [1], 1⟩, ⟨"b", [2], 1⟩] ⟨"a", [1], 1⟩
      [("addr1", some ⟨"b", [2], 1⟩)] .deletePairing "b" [] 0).reply = .ok 2 :=
  (C6_delete_pairing_closes [⟨"a", [1], 1⟩, ⟨"b", [2], 1⟩] ⟨"a", [1], 1⟩
    [("addr1", some ⟨"b", [2], 1⟩)] "b" [] 0 ⟨"b", [2], 1⟩ rfl (by decide)).1

/-! ## Lemmas about characteristic lookup and update -/

theorem findC_updateC :
    ∀ (cs : List Characteristic) (aid iid : Nat) (f : Characteristic → Characteristic),
      (∀ c, (f c).aid = c.aid ∧ (f c).iid = c.iid) → ∀ (x y : Nat),
      findC (updateC cs aid iid f) x y =
        if x = aid ∧ y = iid then (findC cs aid iid).map f else findC cs x y
  | [], aid, iid, f, hf, x, y => by
    simp only [updateC, findC, List.find?_nil]
    split <;> simp
  | c :: cs, aid, iid, f, hf, x, y => by
    have ih := findC_updateC cs aid iid f hf x y
    simp only [findC] at ih ⊢
    by_cases hcA : c.aid = aid ∧ c.iid = iid
    · have hcb : (c.aid == aid && c.iid == iid) = true := by simp [hcA.1, hcA.2]
      simp only [updateC, hcb, if_true]
      by_cases hxy : x = aid ∧ y = iid
      · rw [if_pos hxy]
        have hfb : ((f c).aid == x && (f c).iid == y) = true := by
          simp [(hf c).1, (hf c).2, hcA.1, hcA.2, hxy.1, hxy.2]
        simp only [List.find?, hfb, hcb, Option.map_some']
      · rw [if_neg hxy]
        have hne : (c.aid == x && c.iid == y) = false := by
          simp only [Bool.and_eq_false_iff, beq_eq_false_iff_ne, ne_eq]
          by_contra hcon
          push_neg at hcon
          exact hxy ⟨hcon.1.symm.trans hcA.1, hcon.2.symm.trans hcA.2⟩
        have hfne : ((f c).aid == x && (f c).iid == y) = false := by
          rw [(hf c).1, (hf c).2]
          exact hne
        simp only [List.find?, hfne, hne]
    · have hcb : (c.aid == aid && c.iid == iid) = false := by
        simp only [Bool.and_eq_false_iff, beq_eq_false_iff_ne, ne_eq]
        by_contra hcon
        push_neg at hcon
        exact hcA hcon
      simp only [updateC, hcb, if_false]
      by_cases hq : c.aid = x ∧ c.iid = y
      · have hqb : (c.aid == x && c.iid == y) = true := by simp [hq.1, hq.2]
        have hxyn : ¬ (x = aid ∧ y = iid) := by
          rintro ⟨rfl, rfl⟩
          exact hcA hq
        rw [if_neg hxyn]
        simp only [List.find?, hqb]
      · have hqb : (c.aid == x && c.iid == y) = false := by
          simp only [Bool.and_eq_false_iff, beq_eq_false_iff_ne, ne_eq]
          by_contra hcon
          push_neg at hcon
          exact hq hcon
        by_cases hxy : x = aid ∧ y = iid
        · rw [if_pos hxy] at ih ⊢
          simp only [List.find?, hqb, hcb]
          exact ih
        · rw [if_neg hxy] at ih ⊢
          simp only [List.find?, hqb]
          exact ih

theorem mapGet_mapSet :
    ∀ (m : List (String × Bool)) (k : String) (v : Bool),
      mapGet (mapSet m k v) k = some v
  | [], k, v => by simp [mapSet, mapGet]
  | (k', v') :: rest, k, v => by
    by_cases hk : (k' == k) = true
    · simp [mapSet, mapGet, hk]
    · have hkf : (k' == k) = false := by simpa using hk
      have ih := mapGet_mapSet rest k v
      simp only [mapSet, hkf, if_false]
      simpa [mapGet, List.find?, hkf] using ih

/-! ## Claim theorems: PUT characteristics -/

/-- C5, counterexample.  The claim says an element with `r = true`
echoes the characteristic value AFTER the submitted write; but
`Server.PutCharacteristics` reads the echo value before applying the
write.  With a characteristic holding 5 and a PUT element
`{value: 9, r: true}`, the multi-status response echoes 5 while the
stored value afterwards is 9. -/
theorem C5_counterexample :
    (PutCharacteristics true
      [⟨1, 2, 5, 0, 0, 0, none, none, none, 0, [Perm.read, Perm.write], []⟩] "c"
      [{ aid := 1, iid := 2, value := some 9, response := some true }]).1 =
        .multiStatus [{ aid := 1, iid := 2, value := some 5 }]
    ∧ (PutCharacteristics true
      [⟨1, 2, 5, 0, 0, 0, none, none, none, 0, [Perm.read, Perm.write], []⟩] "c"
      [{ aid := 1, iid := 2, value := some 9, response := some true }]).2 =
        [⟨1, 2, 9, 0, 0, 0, none, none, none, 0, [Perm.read, Perm.write], []⟩] := by
  decide

/-- C5 (amended): for a PUT element whose target characteristic exists:
whenever `r` is PRESENT (with either value, not only `true`), the
response contains an element for that (aid, iid) echoing the value the
characteristic had BEFORE the submitted write was applied; when `r` is
absent no element of the response carries a value; and a submitted
`value` is stored (the post-state value equals it), so the echo differs
from the post-write value whenever the write changes it. -/
theorem C5_amended (cs : List Characteristic) (remote : String) (d : CharacteristicData)
    (c : Characteristic) (hfind : findC cs d.aid d.iid = some c) :
    (d.response.isSome = true →
      ∃ e ∈ (putList cs remote [d]).1, e.aid = d.aid ∧ e.iid = d.iid ∧ e.value = some c.val)
    ∧ (d.response = none → ∀ e ∈ (putList cs remote [d]).1, e.value = none)
    ∧ (∀ v, d.value = some v →
        ∃ c', findC (putList cs remote [d]).2 d.aid d.iid = some c' ∧ c'.val = v) := by
  have hlist1 : (putList cs remote [d]).1 = (putOne cs remote d).1 := by
    simp [putList]
  have hlist2 : (putList cs remote [d]).2 = (putOne cs remote d).2 := by
    simp [putList]
  refine ⟨?_, ?_, ?_⟩
  · intro hr
    rw [hlist1]
    rcases hev : d.events with _ | b
    · refine ⟨{ aid := d.aid, iid := d.iid, value := some c.val }, ?_, rfl, rfl, rfl⟩
      simp [putOne, hfind, hev, hr]
    · by_cases hobs : IsObservable c
      · refine ⟨{ aid := d.aid, iid := d.iid, value := some c.val }, ?_, rfl, rfl, rfl⟩
        simp [putOne, hfind, hev, hobs, hr]
      · refine ⟨{ aid := d.aid, iid := d.iid, value := some c.val, status := some JsonStatusNotificationNotSupported }, ?_, rfl, rfl, rfl⟩
        simp [putOne, hfind, hev, hobs, hr]
  · intro hr e he
    rw [hlist1] at he
    rcases hev : d.events with _ | b
    · simp [putOne, hfind, hev, hr] at he
    · by_cases hobs : IsObservable c
      · simp [putOne, hfind, hev, hobs, hr] at he
      · simp [putOne, hfind, hev, hobs, hr] at he
        rw [he]
  · intro v hv
    rw [hlist2]
    rcases hev : d.events with _ | b
    · simp only [putOne, hfind, hev, hv]
      rw [findC_updateC cs d.aid d.iid (fun e => { e with val := v })
        (fun c => ⟨rfl, rfl⟩) d.aid d.iid, if_pos ⟨rfl, rfl⟩, hfind]
      exact ⟨_, rfl, rfl⟩
    · by_cases hobs : IsObservable c
      · simp only [putOne, hfind, hev, hobs, if_true, hv]
        rw [findC_updateC (updateC cs d.aid d.iid fun e => { e with val := v }) d.aid d.iid
          (fun e => { e with events := mapSet e.events remote b })
          (fun c => ⟨rfl, rfl⟩) d.aid d.iid, if_pos ⟨rfl, rfl⟩]
        rw [findC_updateC cs d.aid d.iid (fun e => { e with val := v })
          (fun c => ⟨rfl, rfl⟩) d.aid d.iid, if_pos ⟨rfl, rfl⟩, hfind]
        simp only [Option.map_some']
        exact ⟨_, rfl, rfl⟩
      · have hobsf : IsObservable c = false := by simpa using hobs
        simp only [putOne, hfind, hev, hobsf, Bool.false_eq_true, if_false, hv]
        rw [findC_updateC cs d.aid d.iid (fun e => { e with val := v })
          (fun c => ⟨rfl, rfl⟩) d.aid d.iid, if_pos ⟨rfl, rfl⟩, hfind]
        exact ⟨_, rfl, rfl⟩

/-- C5, witness for the amended theorem at a concrete request. -/
theorem C5_amended_witness :
    ∃ e ∈ (putList [⟨1, 2, 5, 0, 0, 0, none, none, none, 0, [Perm.read, Perm.write], []⟩]
      "c" [{ aid := 1, iid := 2, value := some 9, response := some true }]).1,
      e.aid = 1 ∧ e.iid = 2 ∧ e.value = some 5 :=
  (C5_amended [⟨1, 2, 5, 0, 0, 0, none, none, none, 0, [Perm.read, Perm.write], []⟩] "c"
    { aid := 1, iid := 2, value := some 9, response := some true }
    ⟨1, 2, 5, 0, 0, 0, none, none, none, 0, [Perm.read, Perm.write], []⟩ rfl).1 rfl

theorem putList_ev_only (remote : String) :
    ∀ (ds : List CharacteristicData) (cs : List Characteristic),
      (∀ e ∈ ds, e.response = none ∧ e.value = none ∧ (∃ b', e.events = some b') ∧
        ∃ c', findC cs e.aid e.iid = some c' ∧ IsObservable c' = true) →
      (putList cs remote ds).1 = []
  | [], _, _ => rfl
  | d :: ds, cs, h => by
    obtain ⟨hr, hv, ⟨b', hb⟩, c', hc, hobs⟩ := h d (List.mem_cons_self d ds)
    have h1 : putOne cs remote d =
        ([], updateC cs d.aid d.iid fun e => { e with events := mapSet e.events remote b' }) := by
      simp [putOne, hc, hb, hobs, hr, hv]
    have hrec := putList_ev_only remote ds
      (updateC cs d.aid d.iid fun e => { e with events := mapSet e.events remote b' })
      (fun e he => by
        obtain ⟨hr', hv', hb'', c'', hc'', hobs''⟩ := h e (List.mem_cons_of_mem d he)
        refine ⟨hr', hv', hb'', ?_⟩
        rw [findC_updateC cs d.aid d.iid
          (fun q => { q with events := mapSet q.events remote b' })
          (fun q => ⟨rfl, rfl⟩) e.aid e.iid]
        by_cases hxy : e.aid = d.aid ∧ e.iid = d.iid
        · rw [if_pos hxy, ← hxy.1, ← hxy.2, hc'', Option.map_some']
          exact ⟨_, rfl, hobs''⟩
        · rw [if_neg hxy]
          exact ⟨c'', hc'', hobs''⟩)
    simp [putList, h1, hrec]

/-- C8 (confirmed): for a PUT element with an `ev` field whose target
characteristic exists: if the characteristic lacks the Events
permission, the response is multi-status containing an element for
that (aid, iid) with status `-70406` (NotificationNotSupported) and the
characteristic's events map is unchanged; otherwise the events map
entry for the request's remote-addr is set to the submitted boolean,
and an element carrying only `ev` (no `r`, no `value`) contributes no
response entry — so a request consisting solely of successful `ev`
updates replies 204 No Content. -/
theorem C8_ev_updates (cs : List Characteristic) (remote : String) (d : CharacteristicData)
    (c : Characteristic) (b : Bool)
    (hfind : findC cs d.aid d.iid = some c) (hev : d.events = some b) :
    (IsObservable c = false →
      (∃ e ∈ (putList cs remote [d]).1, e.aid = d.aid ∧ e.iid = d.iid ∧
        e.status = some JsonStatusNotificationNotSupported)
      ∧ (∃ arr, (PutCharacteristics true cs remote [d]).1 = .multiStatus arr ∧ arr ≠ [])
      ∧ (∃ c', findC (putList cs remote [d]).2 d.aid d.iid = some c' ∧ c'.events = c.events))
    ∧ (IsObservable c = true →
      (∃ c', findC (putList cs remote [d]).2 d.aid d.iid = some c' ∧
        mapGet c'.events remote = some b)
      ∧ (d.response = none → d.value = none → (putList cs remote [d]).1 = []))
    ∧ (∀ ds : List CharacteristicData,
        (∀ e ∈ ds, e.response = none ∧ e.value = none ∧ (∃ b', e.events = some b') ∧
          ∃ c', findC cs e.aid e.iid = some c' ∧ IsObservable c' = true) →
        (PutCharacteristics true cs remote ds).1 = .noContent) := by
  have hlist1 : (putList cs remote [d]).1 = (putOne cs remote d).1 := by
    simp [putList]
  have hlist2 : (putList cs remote [d]).2 = (putOne cs remote d).2 := by
    simp [putList]
  refine ⟨?_, ?_, ?_⟩
  · intro hobs
    refine ⟨?_, ?_, ?_⟩
    · rw [hlist1]
      refine ⟨{ aid := d.aid, iid := d.iid, value := if d.response.isSome = true then some c.val else none, status := some JsonStatusNotificationNotSupported }, ?_, rfl, rfl, rfl⟩
      simp [putOne, hfind, hev, hobs]
    · have hne : (putList cs remote [d]).1 ≠ [] := by
        rw [hlist1]
        simp [putOne, hfind, hev, hobs]
      refine ⟨(putList cs remote [d]).1, ?_, hne⟩
      simp only [PutCharacteristics, Bool.true_eq_false, if_neg, if_false]
      rw [if_neg (by simpa using hne)]
    · rw [hlist2]
      rcases hval : d.value with _ | v
      · simp only [putOne, hfind, hev, hobs, Bool.false_eq_true, if_false, hval]
        exact ⟨c, rfl, rfl⟩
      · simp only [putOne, hfind, hev, hobs, Bool.false_eq_true, if_false, hval]
        rw [findC_updateC cs d.aid d.iid (fun e => { e with val := v })
          (fun q => ⟨rfl, rfl⟩) d.aid d.iid, if_pos ⟨rfl, rfl⟩, hfind]
        exact ⟨_, rfl, rfl⟩
  · intro hobs
    constructor
    · rw [hlist2]
      rcases hval : d.value with _ | v
      · simp only [putOne, hfind, hev, hobs, if_true, hval]
        rw [findC_updateC cs d.aid d.iid
          (fun e => { e with events := mapSet e.events remote b })
          (fun q => ⟨rfl, rfl⟩) d.aid d.iid, if_pos ⟨rfl, rfl⟩, hfind]
        exact ⟨_, rfl, mapGet_mapSet c.events remote b⟩
      · simp only [putOne, hfind, hev, hobs, if_true, hval]
        rw [findC_updateC (updateC cs d.aid d.iid fun e => { e with val := v }) d.aid d.iid
          (fun e => { e with events := mapSet e.events remote b })
          (fun q => ⟨rfl, rfl⟩) d.aid d.iid, if_pos ⟨rfl, rfl⟩]
        rw [findC_updateC cs d.aid d.iid (fun e => { e with val := v })
          (fun q => ⟨rfl, rfl⟩) d.aid d.iid, if_pos ⟨rfl, rfl⟩, hfind]
        simp only [Option.map_some']
        exact ⟨_, rfl, mapGet_mapSet _ remote b⟩
    · intro hr hval
      rw [hlist1]
      simp [putOne, hfind, hev, hobs, hr, hval]
  · intro ds hds
    have hempty := putList_ev_only remote ds cs hds
    simp [PutCharacteristics, hempty]

/-- C8, witness for the observable branch at a concrete request. -/
theorem C8_ev_updates_witness :
    ∃ c', findC (putList [⟨1, 2, 5, 0, 0, 0, none, none, none, 0, [Perm.read, Perm.events], []⟩]
      "addr" [{ aid := 1, iid := 2, events := some true }]).2 1 2 = some c' ∧
      mapGet c'.events "addr" = some true :=
  ((C8_ev_updates [⟨1, 2, 5, 0, 0, 0, none, none, none, 0, [Perm.read, Perm.events], []⟩]
    "addr" { aid := 1, iid := 2, events := some true }
    ⟨1, 2, 5, 0, 0, 0, none, none, none, 0, [Perm.read, Perm.events], []⟩ true
    rfl rfl).2.1 rfl).1

/-! ## Claim theorems: GET characteristics -/

/-- C10 (confirmed): in `Server.GetCharacteristics`, every
comma-separated id element that does not split into exactly two
dot-separated parts is skipped by the `continue`: it contributes no
response element and no error status.  A request with a non-empty `id`
value consisting only of such malformed elements therefore replies
HTTP 200 with an empty characteristics array, not an error. -/
theorem C10_malformed_ids_skipped (cs : List Characteristic) (remote : String)
    (meta perms typ ev : Bool) (idParam : List Char)
    (hne : idParam ≠ [])
    (hmal : ∀ s ∈ splitOnChar ',' idParam, (splitOnChar '.' s).length ≠ 2) :
    GetCharacteristics true cs remote meta perms typ ev idParam = .ok [] := by
  have hlen : idParam.length ≠ 0 := by
    intro h
    exact hne (List.eq_nil_of_length_eq_zero h)
  have helems : ∀ (strs : List (List Char)),
      (∀ s ∈ strs, (splitOnChar '.' s).length ≠ 2) →
      getElems cs remote meta perms typ ev strs = ([], false) := by
    intro strs
    induction strs with
    | nil => intro _; rfl
    | cons s rest ih =>
      intro h
      have hs := h s (List.mem_cons_self s rest)
      have hrest := ih (fun x hx => h x (List.mem_cons_of_mem s hx))
      rcases hsp : splitOnChar '.' s with _ | ⟨a, rest2⟩
      · simp [getElems, hsp, hrest]
      · rcases rest2 with _ | ⟨b, rest3⟩
        · simp [getElems, hsp, hrest]
        · rcases rest3 with _ | ⟨c3, rest4⟩
          · rw [hsp] at hs
            simp at hs
          · simp [getElems, hsp, hrest]
  simp [GetCharacteristics, hlen, helems (splitOnChar ',' idParam) hmal]

/-- C10, witness: the id value "1.2.3" is non-empty and wholly
malformed; the reply is 200 with an empty array. -/
theorem C10_malformed_ids_skipped_witness :
    GetCharacteristics true [] "addr" false false false false
      [Char.ofNat 49, Char.ofNat 46, Char.ofNat 50, Char.ofNat 46, Char.ofNat 51] = .ok [] :=
  C10_malformed_ids_skipped [] "addr" false false false false
    [Char.ofNat 49, Char.ofNat 46, Char.ofNat 50, Char.ofNat 46, Char.ofNat 51]
    (by decide) (by decide)

end Hap
